/-
Verification of the pyspiflash command-line utilities.

Shallow embedding of the core logic of `flash_erase.py`, `flash_write_file.py`
and `flash_read_file.py`: size/address string parsing, the chunked
erase/write/read/verify loops, and the CLI front-end control flow around
them.  Device state is modelled as an abstract memory `mem : Nat → Nat`
(the byte returned by `flash.read` at each absolute address) and every
device call issued by a flow is recorded in an `DevAction` trace.
-/
import Mathlib

/-! ## Python string primitives (ASCII fragment used by the scripts) -/

/-- Whitespace recognized by Python `str.strip`. -/
def isSpaceChar (c : Char) : Bool :=
  c.toNat = 32 ∨ c.toNat = 9 ∨ c.toNat = 10 ∨ c.toNat = 13 ∨ c.toNat = 11 ∨ c.toNat = 12

/-- ASCII decimal digit. -/
def isDigitChar (c : Char) : Bool :=
  48 ≤ c.toNat ∧ c.toNat ≤ 57

/-- ASCII hexadecimal digit. -/
def isHexDigitChar (c : Char) : Bool :=
  (48 ≤ c.toNat ∧ c.toNat ≤ 57) ∨ (97 ≤ c.toNat ∧ c.toNat ≤ 102) ∨
    (65 ≤ c.toNat ∧ c.toNat ≤ 70)

/-- Python `str.strip()` on a character list. -/
def pyStrip (l : List Char) : List Char :=
  ((l.dropWhile isSpaceChar).reverse.dropWhile isSpaceChar).reverse

/-- ASCII `str.lower()` for one character. -/
def charLower (c : Char) : Char :=
  if 65 ≤ c.toNat ∧ c.toNat ≤ 90 then Char.ofNat (c.toNat + 32) else c

/-- ASCII `str.upper()` for one character. -/
def charUpper (c : Char) : Char :=
  if 97 ≤ c.toNat ∧ c.toNat ≤ 122 then Char.ofNat (c.toNat - 32) else c

/-- Python `str.lower()`. -/
def pyLower (l : List Char) : List Char := l.map charLower

/-- Python `str.upper()`. -/
def pyUpper (l : List Char) : List Char := l.map charUpper

/-- Python `str.endswith` with a one-character suffix. -/
def endsWithChar (l : List Char) (c : Char) : Bool :=
  match l.getLast? with
  | some x => x = c
  | none => false

/-- Python `str.startswith("0x")` (used on lowercased strings). -/
def startsWith0xLower (l : List Char) : Bool :=
  match l with
  | c0 :: c1 :: _ => c0.toNat = 48 ∧ c1.toNat = 120
  | _ => false

/-- Python `str.startswith("0X")` (used on uppercased strings). -/
def startsWith0XUpper (l : List Char) : Bool :=
  match l with
  | c0 :: c1 :: _ => c0.toNat = 48 ∧ c1.toNat = 88
  | _ => false

/-- Leading sign of a Python numeric literal. -/
def splitSign (l : List Char) : Int × List Char :=
  match l with
  | [] => (1, [])
  | c :: r =>
    if c.toNat = 45 then (-1, r)
    else if c.toNat = 43 then (1, r)
    else (1, c :: r)

/-- Value of a decimal digit string. -/
def digitsVal (l : List Char) : Nat :=
  l.foldl (fun acc c => acc * 10 + (c.toNat - 48)) 0

/-- Value of one hexadecimal digit. -/
def hexDigitVal (c : Char) : Nat :=
  if 48 ≤ c.toNat ∧ c.toNat ≤ 57 then c.toNat - 48
  else if 97 ≤ c.toNat ∧ c.toNat ≤ 102 then c.toNat - 87
  else c.toNat - 55

/-- Value of a hexadecimal digit string. -/
def hexVal (l : List Char) : Nat :=
  l.foldl (fun acc c => acc * 16 + hexDigitVal c) 0

/-- Python `int(s)`: optional surrounding whitespace, optional sign,
nonempty run of decimal digits. -/
def pyIntDec (l0 : List Char) : Option Int :=
  let l := pyStrip l0
  let s := splitSign l
  if s.2 ≠ [] ∧ s.2.all isDigitChar then some (s.1 * (digitsVal s.2 : Int)) else none

/-- Strip an optional `0x` / `0X` prefix (Python `int(s, 16)` accepts both). -/
def dropHexPrefix (l : List Char) : List Char :=
  match l with
  | c0 :: c1 :: r =>
    if c0.toNat = 48 ∧ (c1.toNat = 120 ∨ c1.toNat = 88) then r else c0 :: c1 :: r
  | r => r

/-- Python `int(s, 16)`: optional whitespace, sign, optional `0x` prefix,
nonempty run of hexadecimal digits. -/
def pyIntHex (l0 : List Char) : Option Int :=
  let l := pyStrip l0
  let s := splitSign l
  let ds := dropHexPrefix s.2
  if ds ≠ [] ∧ ds.all isHexDigitChar then some (s.1 * (hexVal ds : Int)) else none

/-- Python `float(s)` restricted to plain decimal literals
(optional sign, digits, optional fractional part): the sign and the two
digit runs, representing the exact value `sign * (int . frac)`. -/
def pyFloatParts (l0 : List Char) : Option (Int × List Char × List Char) :=
  let l := pyStrip l0
  let s := splitSign l
  let ip := s.2.takeWhile (fun c => c.toNat ≠ 46)
  let rest := s.2.dropWhile (fun c => c.toNat ≠ 46)
  let fp? : Option (List Char) :=
    match rest with
    | [] => some []
    | _ :: r => if r.any (fun c => c.toNat = 46) then none else some r
  match fp? with
  | none => none
  | some fp =>
    if ip.all isDigitChar ∧ fp.all isDigitChar ∧ (ip ≠ [] ∨ fp ≠ []) then
      some (s.1, ip, fp)
    else none

deriving instance DecidableEq for Except

/-! ## The two `parse_size` implementations -/

namespace FlashErase

/-- `flash_erase.parse_size` after the initial `strip().lower()`
(`flash_erase.py` lines 51-72). -/
def parse_size_tail (t : List Char) : Except Unit Int :=
  if t = "-1".data ∨ t = "all".data ∨ t = "chip".data ∨ t = "full".data then
    .ok (-1)
  else
    let m : Nat × List Char :=
      if endsWithChar t 'k' then (1024, t.dropLast)
      else if endsWithChar t 'm' then (1024 * 1024, t.dropLast)
      else (1, t)
    match (if startsWith0xLower m.2 then pyIntHex m.2 else pyIntDec m.2) with
    | some v => .ok (v * (m.1 : Int))
    | none => .error ()

/-- `flash_erase.parse_size` (`flash_erase.py` lines 41-72). -/
def parse_size (s : String) : Except Unit Int :=
  parse_size_tail (pyLower (pyStrip s.data))

end FlashErase

namespace FlashRead

/-- `int(float(num) * multiplier)` as used by `flash_read_file.parse_size`:
`sign * (I.F) * multiplier` truncated toward zero, computed exactly as
`sign * ((I * 10^|F| + F) * multiplier / 10^|F|)` with `Nat` division. -/
def suffix_value (num : List Char) (multiplier : Nat) : Except Unit Int :=
  match pyFloatParts num with
  | some (sgn, ip, fp) =>
    .ok (sgn * (((digitsVal ip * 10 ^ fp.length + digitsVal fp) * multiplier / 10 ^ fp.length : Nat) : Int))
  | none => .error ()

/-- `flash_read_file.parse_size` after the initial `strip().upper()`
(`flash_read_file.py` lines 51-67); the multiplier dictionary is
iterated in insertion order K, M, G. -/
def parse_size_tail (t : List Char) : Except Unit Int :=
  if endsWithChar t 'K' then suffix_value t.dropLast 1024
  else if endsWithChar t 'M' then suffix_value t.dropLast (1024 * 1024)
  else if endsWithChar t 'G' then suffix_value t.dropLast (1024 * 1024 * 1024)
  else if startsWith0XUpper t then
    match pyIntHex t with
    | some v => .ok v
    | none => .error ()
  else
    match pyIntDec t with
    | some v => .ok v
    | none => .error ()

/-- `flash_read_file.parse_size` (`flash_read_file.py` lines 49-67). -/
def parse_size (s : String) : Except Unit Int :=
  parse_size_tail (pyUpper (pyStrip s.data))

end FlashRead

/-! ## Device model and chunked operation loops -/

/-- One device call issued by a flow: the unlock attempt (with whether the
driver raised), a whole-chip erase (`flash.erase(0, -1)`), a ranged erase,
a chunk write, or a chunk read. -/
inductive DevAction where
  | unlock (ok : Bool)
  | chipErase
  | erase (addr size : Nat)
  | write (addr : Nat) (data : List Nat)
  | read (addr size : Nat)
  deriving DecidableEq

/-- `flash.read(address, n)`: the device returns the byte `mem a` for each
absolute address `a` in `[address, address + n)`. -/
def flash_read (mem : Nat → Nat) (address n : Nat) : List Nat :=
  (List.range n).map fun i => mem (address + i)

/-- The chunked erase loop (`flash_erase.py` lines 169-178 and
`flash_write_file.py` lines 124-133): the `(current_address, current_size)`
pairs passed to `flash.erase`, starting from `erased` bytes already done.
The `0 < block_size` guard totalizes the embedding; with a zero block size
the Python loop never terminates. -/
def erase_loop (address block_size size erased : Nat) : List (Nat × Nat) :=
  if h : erased < size ∧ 0 < block_size then
    let current_size := min block_size (size - erased)
    (address + erased, current_size) :: erase_loop address block_size size (erased + current_size)
  else []
termination_by size - erased
decreasing_by simp_wf; omega

/-- The chunked write loop (`flash_write_file.py` lines 149-157): the
`(current_address, current_data)` pairs passed to `flash.write`. -/
def write_loop (data : List Nat) (address chunk_size written : Nat) : List (Nat × List Nat) :=
  if h : written < data.length ∧ 0 < chunk_size then
    let current_size := min chunk_size (data.length - written)
    (address + written, (data.drop written).take current_size) ::
      write_loop data address chunk_size (written + current_size)
  else []
termination_by data.length - written
decreasing_by simp_wf; omega

/-- Inner byte scan of the erase verifier (`flash_erase.py` lines 203-207):
count non-0xFF bytes and remember the first bad offset `base + i`. -/
def scan_ff (bytes : List Nat) (base i non_erased : Nat) (first_error_offset : Option Nat) :
    Nat × Option Nat :=
  match bytes with
  | [] => (non_erased, first_error_offset)
  | b :: rest =>
    if b ≠ 255 then
      scan_ff rest base (i + 1) (non_erased + 1)
        (if first_error_offset = none then some (base + i) else first_error_offset)
    else scan_ff rest base (i + 1) non_erased first_error_offset

/-- The chunked erase-verification loop (`flash_erase.py` lines 196-210),
returning `(non_erased, first_error_offset, read actions issued)`. -/
def erase_verify (mem : Nat → Nat) (address size chunk_size verified non_erased : Nat)
    (first_error_offset : Option Nat) : Nat × Option Nat × List DevAction :=
  if h : verified < size ∧ 0 < chunk_size then
    let current_size := min chunk_size (size - verified)
    let data := flash_read mem (address + verified) current_size
    let s := scan_ff data verified 0 non_erased first_error_offset
    let rest := erase_verify mem address size chunk_size (verified + current_size) s.1 s.2
    (rest.1, rest.2.1, DevAction.read (address + verified) current_size :: rest.2.2)
  else (non_erased, first_error_offset, [])
termination_by size - verified
decreasing_by simp_wf; omega

/-- Inner comparison scan of the write verifier (`flash_write_file.py`
lines 181-185): count mismatching `(readback, expected)` pairs and
remember the first bad offset `base + i`. -/
def scan_cmp (pairs : List (Nat × Nat)) (base i errors : Nat) (first_error_offset : Option Nat) :
    Nat × Option Nat :=
  match pairs with
  | [] => (errors, first_error_offset)
  | (a, b) :: rest =>
    if a ≠ b then
      scan_cmp rest base (i + 1) (errors + 1)
        (if first_error_offset = none then some (base + i) else first_error_offset)
    else scan_cmp rest base (i + 1) errors first_error_offset

/-- The chunked write-verification loop (`flash_write_file.py` lines
173-188), returning `(errors, first_error_offset, read actions issued)`. -/
def write_verify (mem : Nat → Nat) (data : List Nat) (address chunk_size verified errors : Nat)
    (first_error_offset : Option Nat) : Nat × Option Nat × List DevAction :=
  if h : verified < data.length ∧ 0 < chunk_size then
    let current_size := min chunk_size (data.length - verified)
    let readback := flash_read mem (address + verified) current_size
    let expected := (data.drop verified).take current_size
    let s := scan_cmp (readback.zip expected) verified 0 errors first_error_offset
    let rest := write_verify mem data address chunk_size (verified + current_size) s.1 s.2
    (rest.1, rest.2.1, DevAction.read (address + verified) current_size :: rest.2.2)
  else (errors, first_error_offset, [])
termination_by data.length - verified
decreasing_by simp_wf; omega

/-- The chunked read loop (`flash_read_file.py` lines 120-128), returning
the accumulated data and the read actions issued. -/
def read_loop (mem : Nat → Nat) (address size chunk_size read_bytes : Nat) :
    List Nat × List DevAction :=
  if h : read_bytes < size ∧ 0 < chunk_size then
    let current_size := min chunk_size (size - read_bytes)
    let chunk := flash_read mem (address + read_bytes) current_size
    let rest := read_loop mem address size chunk_size (read_bytes + chunk.length)
    (chunk ++ rest.1, DevAction.read (address + read_bytes) current_size :: rest.2)
  else ([], [])
termination_by size - read_bytes
decreasing_by
  simp_wf
  simp only [flash_read, List.length_map, List.length_range]
  omega

/-- `flash_write_file.calculate_erase_size` (lines 50-52): round the data
size up to a multiple of the erase block size. -/
def calculate_erase_size (data_size : Nat) (block_size : Nat) : Nat :=
  (data_size + block_size - 1) / block_size * block_size

/-- Whole-chip sentinel substitution of `flash_erase.erase_flash`
(lines 116-117): `-1` becomes the device capacity. -/
def effective_size (cap : Nat) (size0 : Int) : Int :=
  if size0 = -1 then (cap : Int) else size0

/-- `main`-level exception handling shared by all three scripts: a raised
exception prints the error and exits 1, a normal return exits 0. -/
def run_exit {ε α : Type} (r : Except ε α) : Nat :=
  match r with
  | .ok _ => 0
  | .error _ => 1

/-! ## The three front-end flows -/

inductive EraseErr where
  | range
  | verifyFailed
  deriving DecidableEq

/-- Observable outcome of `erase_flash`: device calls issued, whether the
large-erase confirmation prompt was shown, the verification counters, and
the result (`.ok` = normal return value, `.error` = exception raised). -/
structure EraseOutcome where
  trace : List DevAction
  asked : Bool
  non_erased : Nat
  first_error_offset : Option Nat
  result : Except EraseErr Bool
  deriving DecidableEq

/-- `flash_erase.erase_flash` (lines 98-237).  `size0` is the `size`
argument (`-1` = whole chip), `unlock_ok` is whether `flash.unlock()`
raised, `confirm_big` is the user's answer to the ≥ 1 MiB confirmation
prompt. -/
def erase_flash (cap block_size : Nat) (mem : Nat → Nat) (address : Nat)
    (size0 : Int) (verify_after unlock_ok confirm_big : Bool) : EraseOutcome :=
  let size := effective_size cap size0
  if (address : Int) + size > (cap : Int) then
    ⟨[], false, 0, none, .error .range⟩
  else
    let tr0 := [DevAction.unlock unlock_ok]
    let asked := decide (size ≥ 1024 * 1024)
    if asked ∧ ¬confirm_big then
      ⟨tr0, asked, 0, none, .ok false⟩
    else
      let eraseTr :=
        if size = (cap : Int) then [DevAction.chipErase]
        else (erase_loop address block_size size.toNat 0).map fun p => DevAction.erase p.1 p.2
      if verify_after then
        let v := erase_verify mem address size.toNat 4096 0 0 none
        ⟨tr0 ++ eraseTr ++ v.2.2, asked, v.1, v.2.1,
          if v.1 = 0 then .ok true else .error .verifyFailed⟩
      else
        ⟨tr0 ++ eraseTr, asked, 0, none, .ok true⟩

inductive WriteErr where
  | range
  | verifyFailed
  deriving DecidableEq

/-- Observable outcome of `write_file_to_flash`. -/
structure WriteOutcome where
  trace : List DevAction
  errors : Nat
  first_error_offset : Option Nat
  result : Except WriteErr Unit
  deriving DecidableEq

/-- `flash_write_file.write_file_to_flash` (lines 68-213) with the file
contents `data` already loaded. -/
def write_file_to_flash (cap block_size : Nat) (mem : Nat → Nat) (data : List Nat)
    (address : Nat) (verify erase : Bool) (chunk_size : Nat) (unlock_ok : Bool) : WriteOutcome :=
  if address + data.length > cap then
    ⟨[], 0, none, .error .range⟩
  else
    let tr0 := [DevAction.unlock unlock_ok]
    let trE :=
      if erase then
        (erase_loop address block_size (calculate_erase_size data.length block_size) 0).map
          fun p => DevAction.erase p.1 p.2
      else []
    let trW := (write_loop data address chunk_size 0).map fun p => DevAction.write p.1 p.2
    if verify then
      let v := write_verify mem data address chunk_size 0 0 none
      ⟨tr0 ++ trE ++ trW ++ v.2.2, v.1, v.2.1,
        if v.1 = 0 then .ok () else .error .verifyFailed⟩
    else
      ⟨tr0 ++ trE ++ trW, 0, none, .ok ()⟩

inductive ReadErr where
  | range
  deriving DecidableEq

/-- Observable outcome of `read_flash_to_file`. -/
structure ReadOutcome where
  trace : List DevAction
  data : List Nat
  asked_overwrite : Bool
  file_written : Bool
  result : Except ReadErr Unit
  deriving DecidableEq

/-- `flash_read_file.read_flash_to_file` (lines 83-162): range check, read
loop, then the in-function overwrite prompt (lines 139-143) before saving. -/
def read_flash_to_file (cap : Nat) (mem : Nat → Nat) (output_exists : Bool)
    (size : Int) (address chunk_size : Nat) (confirm_overwrite : Bool) : ReadOutcome :=
  if (address : Int) + size > (cap : Int) then
    ⟨[], [], false, false, .error .range⟩
  else
    let r := read_loop mem address size.toNat chunk_size 0
    if output_exists ∧ ¬confirm_overwrite then
      ⟨r.2, r.1, output_exists, false, .ok ()⟩
    else
      ⟨r.2, r.1, output_exists, true, .ok ()⟩

/-- Observable outcome of the read tool's `main` (lines 262-291). -/
structure MainReadOutcome where
  trace : List DevAction
  asked_overwrite : Bool
  exit_code : Nat
  ran : Bool
  deriving DecidableEq

/-- `flash_read_file.main` from the file-conflict check onward (lines
262-291): the overwrite prompt and the start prompt are both skipped when
`force` is set, declining either cancels with exit code 0. -/
def read_main (cap : Nat) (mem : Nat → Nat) (output_exists force confirm_overwrite confirm_start : Bool)
    (address : Nat) (size : Int) (chunk_size : Nat) (confirm_overwrite_inner : Bool) :
    MainReadOutcome :=
  if output_exists ∧ ¬force ∧ ¬confirm_overwrite then
    ⟨[], output_exists && !force, 0, false⟩
  else if ¬force ∧ ¬confirm_start then
    ⟨[], output_exists && !force, 0, false⟩
  else
    let r := read_flash_to_file cap mem output_exists size address chunk_size confirm_overwrite_inner
    ⟨r.trace, output_exists && !force, run_exit r.result, true⟩

/-- Replace the recorded unlock outcome by a fixed value, for stating that
a flow does not depend on whether `flash.unlock()` raised. -/
def scrub_unlock (a : DevAction) : DevAction :=
  match a with
  | .unlock _ => .unlock true
  | a => a

/-- Select the ranged-erase calls of a trace. -/
def isEraseCall (a : DevAction) : Bool :=
  match a with
  | .erase _ _ => true
  | _ => false

/-! ## Helper lemmas: strings and parsing -/

theorem dropWhile_eq_self_of_head {p : Char → Bool} {l : List Char}
    (h : ∀ c ∈ l, p c = false) : l.dropWhile p = l := by
  cases l with
  | nil => rfl
  | cons a t =>
    rw [List.dropWhile_cons_of_neg]
    simp [h a (by simp)]

theorem pyStrip_eq_self {l : List Char} (h : ∀ c ∈ l, isSpaceChar c = false) :
    pyStrip l = l := by
  unfold pyStrip
  rw [dropWhile_eq_self_of_head h, dropWhile_eq_self_of_head, List.reverse_reverse]
  intro c hc
  exact h c (List.mem_reverse.mp hc)

theorem takeWhile_eq_self_of_all {p : Char → Bool} {l : List Char}
    (h : ∀ c ∈ l, p c = true) : l.takeWhile p = l := by
  induction l with
  | nil => rfl
  | cons a t ih =>
    rw [List.takeWhile_cons_of_pos (h a (by simp))]
    simp [ih fun c hc => h c (by simp [hc])]

theorem dropWhile_eq_nil_of_all {p : Char → Bool} {l : List Char}
    (h : ∀ c ∈ l, p c = true) : l.dropWhile p = [] := by
  induction l with
  | nil => rfl
  | cons a t ih =>
    rw [List.dropWhile_cons_of_pos (h a (by simp))]
    exact ih fun c hc => h c (by simp [hc])

theorem charUpper_of_digit {c : Char} (h : isDigitChar c = true) : charUpper c = c := by
  simp only [isDigitChar, decide_eq_true_eq] at h
  have hn : ¬(97 ≤ c.toNat ∧ c.toNat ≤ 122) := by omega
  simp [charUpper, hn]

theorem charLower_of_digit {c : Char} (h : isDigitChar c = true) : charLower c = c := by
  simp only [isDigitChar, decide_eq_true_eq] at h
  have hn : ¬(65 ≤ c.toNat ∧ c.toNat ≤ 90) := by omega
  simp [charLower, hn]

theorem pyUpper_of_digits {l : List Char} (h : ∀ c ∈ l, isDigitChar c = true) :
    pyUpper l = l := by
  unfold pyUpper
  rw [List.map_congr_left fun c hc => charUpper_of_digit (h c hc)]
  simp

theorem pyLower_of_digits {l : List Char} (h : ∀ c ∈ l, isDigitChar c = true) :
    pyLower l = l := by
  unfold pyLower
  rw [List.map_congr_left fun c hc => charLower_of_digit (h c hc)]
  simp

theorem digit_not_space {c : Char} (h : isDigitChar c = true) : isSpaceChar c = false := by
  simp only [isDigitChar, decide_eq_true_eq] at h
  simp only [isSpaceChar, decide_eq_false_iff_not]
  omega

theorem endsWithChar_concat (l : List Char) (a c : Char) :
    endsWithChar (l ++ [a]) c = decide (a = c) := by
  simp [endsWithChar, List.getLast?_concat]

theorem splitSign_of_digits {l : List Char} (hne : l ≠ [])
    (h : ∀ c ∈ l, isDigitChar c = true) : splitSign l = (1, l) := by
  cases l with
  | nil => exact absurd rfl hne
  | cons a t =>
    have ha := h a (by simp)
    simp only [isDigitChar, decide_eq_true_eq] at ha
    have h45 : ¬(a.toNat = 45) := by omega
    have h43 : ¬(a.toNat = 43) := by omega
    simp [splitSign, h45, h43]

theorem getLast_mem_of_endsWith {l : List Char} {c : Char}
    (h : endsWithChar l c = true) : c ∈ l := by
  unfold endsWithChar at h
  cases hl : l.getLast? with
  | none => rw [hl] at h; simp at h
  | some x =>
    rw [hl] at h
    simp only [decide_eq_true_eq] at h
    subst h
    exact List.mem_of_mem_getLast? hl

theorem endsWithChar_false_of_digits {l : List Char} {c : Char}
    (h : ∀ x ∈ l, isDigitChar x = true) (hc : isDigitChar c = false) :
    endsWithChar l c = false := by
  cases he : endsWithChar l c with
  | false => rfl
  | true => exact absurd (h c (getLast_mem_of_endsWith he)) (by simp [hc])

theorem startsWith0xLower_false_of_digits {l : List Char}
    (h : ∀ x ∈ l, isDigitChar x = true) : startsWith0xLower l = false := by
  cases l with
  | nil => rfl
  | cons c0 t =>
    cases t with
    | nil => rfl
    | cons c1 r =>
      have h1 := h c1 (by simp)
      simp only [isDigitChar, decide_eq_true_eq] at h1
      simp only [startsWith0xLower, decide_eq_false_iff_not]
      omega

theorem startsWith0XUpper_false_of_digits {l : List Char}
    (h : ∀ x ∈ l, isDigitChar x = true) : startsWith0XUpper l = false := by
  cases l with
  | nil => rfl
  | cons c0 t =>
    cases t with
    | nil => rfl
    | cons c1 r =>
      have h1 := h c1 (by simp)
      simp only [isDigitChar, decide_eq_true_eq] at h1
      simp only [startsWith0XUpper, decide_eq_false_iff_not]
      omega

theorem pyIntDec_of_digits {l : List Char} (hne : l ≠ [])
    (h : ∀ c ∈ l, isDigitChar c = true) :
    pyIntDec l = some (digitsVal l : Int) := by
  simp only [pyIntDec]
  rw [pyStrip_eq_self fun c hc => digit_not_space (h c hc), splitSign_of_digits hne h]
  simp only
  rw [if_pos ⟨hne, List.all_eq_true.mpr h⟩, one_mul]

theorem pyFloatParts_of_digits {l : List Char} (hne : l ≠ [])
    (h : ∀ c ∈ l, isDigitChar c = true) :
    pyFloatParts l = some (1, l, []) := by
  simp only [pyFloatParts]
  rw [pyStrip_eq_self fun c hc => digit_not_space (h c hc), splitSign_of_digits hne h]
  simp only
  have hdot : ∀ c ∈ l, (fun c : Char => decide (c.toNat ≠ 46)) c = true := by
    intro c hc
    have := h c hc
    simp only [isDigitChar, decide_eq_true_eq] at this
    simp only [decide_eq_true_eq]
    omega
  rw [takeWhile_eq_self_of_all hdot, dropWhile_eq_nil_of_all hdot]
  simp only
  rw [if_pos ⟨List.all_eq_true.mpr h, by simp, Or.inl hne⟩]

theorem erase_parse_size_digits {ds : List Char} (hne : ds ≠ [])
    (h : ∀ c ∈ ds, isDigitChar c = true) :
    FlashErase.parse_size ⟨ds⟩ = .ok (digitsVal ds : Int) := by
  show FlashErase.parse_size_tail (pyLower (pyStrip ds)) = _
  rw [pyStrip_eq_self fun c hc => digit_not_space (h c hc), pyLower_of_digits h]
  have hsent : ¬(ds = "-1".data ∨ ds = "all".data ∨ ds = "chip".data ∨ ds = "full".data) := by
    rintro (rfl | rfl | rfl | rfl)
    · exact absurd (h '-' (by decide)) (by decide)
    · exact absurd (h 'a' (by decide)) (by decide)
    · exact absurd (h 'c' (by decide)) (by decide)
    · exact absurd (h 'f' (by decide)) (by decide)
  have hk := endsWithChar_false_of_digits h (c := 'k') (by decide)
  have hm := endsWithChar_false_of_digits h (c := 'm') (by decide)
  have hx := startsWith0xLower_false_of_digits h
  simp only [FlashErase.parse_size_tail, hsent, if_false, hk, hm, hx,
    Bool.false_eq_true, pyIntDec_of_digits hne h, Nat.cast_one, mul_one]

theorem read_parse_size_digits {ds : List Char} (hne : ds ≠ [])
    (h : ∀ c ∈ ds, isDigitChar c = true) :
    FlashRead.parse_size ⟨ds⟩ = .ok (digitsVal ds : Int) := by
  show FlashRead.parse_size_tail (pyUpper (pyStrip ds)) = _
  rw [pyStrip_eq_self fun c hc => digit_not_space (h c hc), pyUpper_of_digits h]
  have hk := endsWithChar_false_of_digits h (c := 'K') (by decide)
  have hm := endsWithChar_false_of_digits h (c := 'M') (by decide)
  have hg := endsWithChar_false_of_digits h (c := 'G') (by decide)
  have hx := startsWith0XUpper_false_of_digits h
  simp only [FlashRead.parse_size_tail, hk, hm, hg, hx, Bool.false_eq_true, if_false,
    pyIntDec_of_digits hne h]

theorem read_parse_size_digits_G {ds : List Char} (hne : ds ≠ [])
    (h : ∀ c ∈ ds, isDigitChar c = true) :
    FlashRead.parse_size ⟨ds ++ ['G']⟩ = .ok ((digitsVal ds : Int) * (1024 * 1024 * 1024)) := by
  show FlashRead.parse_size_tail (pyUpper (pyStrip (ds ++ ['G']))) = _
  have hall : ∀ c ∈ ds ++ ['G'], isSpaceChar c = false := by
    intro c hc
    rcases List.mem_append.mp hc with hc | hc
    · exact digit_not_space (h c hc)
    · simp only [List.mem_singleton] at hc; subst hc; decide
  rw [pyStrip_eq_self hall]
  unfold pyUpper
  rw [List.map_append]
  rw [show List.map charUpper ds = ds from pyUpper_of_digits h,
    show List.map charUpper ['G'] = ['G'] by decide]
  have hK : endsWithChar (ds ++ ['G']) 'K' = false := by
    rw [endsWithChar_concat]; decide
  have hM : endsWithChar (ds ++ ['G']) 'M' = false := by
    rw [endsWithChar_concat]; decide
  have hG : endsWithChar (ds ++ ['G']) 'G' = true := by
    rw [endsWithChar_concat]; decide
  simp only [FlashRead.parse_size_tail, hK, hM, hG, Bool.false_eq_true, if_false, if_true,
    List.dropLast_concat]
  simp only [FlashRead.suffix_value, pyFloatParts_of_digits hne h]
  simp only [List.length_nil, pow_zero, mul_one, Nat.div_one]
  rw [show digitsVal [] = 0 from rfl]
  push_cast
  ring_nf

/-- C4 (corrected).  The erase tool's `parse_size` accepts decimal,
`0x`-hexadecimal and the `k`/`K`/`m`/`M` power-of-1024 suffixes but rejects
`G`; only the read tool's `parse_size` accepts `K`/`M`/`G`
(case-insensitively).  `parse_size("4k") = 4096` and
`parse_size("1m") = 1048576` hold in both parsers, and for every decimal
numeral `n` (below `2^53`, where the `float` conversion is exact) the read
tool maps `n ++ "G"` to `n * 1024^3`. -/
theorem parse_size_suffix_grammar :
    FlashErase.parse_size "4k" = .ok 4096 ∧ FlashErase.parse_size "1m" = .ok 1048576 ∧
    FlashErase.parse_size "64K" = .ok 65536 ∧ FlashErase.parse_size "16M" = .ok 16777216 ∧
    FlashErase.parse_size "0x1000" = .ok 4096 ∧ FlashErase.parse_size "4096" = .ok 4096 ∧
    FlashRead.parse_size "4k" = .ok 4096 ∧ FlashRead.parse_size "1m" = .ok 1048576 ∧
    FlashErase.parse_size "1G" = .error () ∧
    (∀ ds : List Char, ds ≠ [] → (∀ c ∈ ds, isDigitChar c = true) →
      digitsVal ds < 2 ^ 53 →
      FlashRead.parse_size ⟨ds ++ ['G']⟩ = .ok ((digitsVal ds : Int) * 1024 ^ 3)) := by
  refine ⟨by decide, by decide, by decide, by decide, by decide, by decide, by decide,
    by decide, by decide, ?_⟩
  intro ds hne h _
  rw [read_parse_size_digits_G hne h]
  norm_num

/-- Witness for C4: the amended universal clause at the concrete numeral `9`. -/
theorem parse_size_suffix_grammar_witness :
    FlashRead.parse_size ⟨['9', 'G']⟩ = .ok ((9 : Int) * 1024 ^ 3) := by
  have := parse_size_suffix_grammar.2.2.2.2.2.2.2.2.2 ['9'] (by decide) (by decide) (by decide)
  simpa using this

/-- Counterexample for C4 as stated: the erase tool's parser rejects the
`G` suffix instead of multiplying by `1024^3`. -/
theorem parse_size_G_counterexample :
    FlashErase.parse_size "1G" = .error () ∧
    FlashErase.parse_size "1G" ≠ .ok ((1 : Int) * 1024 ^ 3) := by
  constructor <;> decide

/-- C5 (corrected).  Only the erase tool's `parse_size` recognizes the
sentinel tokens `-1`/`all`/`chip`/`full` (case-insensitively, after
stripping), returning `-1`, and `erase_flash` then substitutes the device
capacity.  The read tool's parser accepts none of the word tokens
(`all`/`chip`/`full` are parse errors) and parses `-1` as the plain
integer `-1` with no capacity substitution. -/
theorem parse_size_sentinels :
    (∀ s : String,
      (pyLower (pyStrip s.data) = "-1".data ∨ pyLower (pyStrip s.data) = "all".data ∨
        pyLower (pyStrip s.data) = "chip".data ∨ pyLower (pyStrip s.data) = "full".data) →
      FlashErase.parse_size s = .ok (-1)) ∧
    (∀ cap block_size mem address verify_after unlock_ok confirm_big,
      erase_flash cap block_size mem address (-1) verify_after unlock_ok confirm_big =
        erase_flash cap block_size mem address (cap : Int) verify_after unlock_ok confirm_big) ∧
    FlashErase.parse_size "ALL" = .ok (-1) ∧ FlashErase.parse_size "Chip" = .ok (-1) ∧
    FlashErase.parse_size " full " = .ok (-1) ∧ FlashErase.parse_size "-1" = .ok (-1) := by
  refine ⟨?_, ?_, by decide, by decide, by decide, by decide⟩
  · intro s hs
    show FlashErase.parse_size_tail (pyLower (pyStrip s.data)) = _
    rcases hs with hs | hs | hs | hs <;> rw [hs] <;> decide
  · intro cap block_size mem address verify_after unlock_ok confirm_big
    have h1 : effective_size cap (-1) = (cap : Int) := by simp [effective_size]
    have h2 : effective_size cap (cap : Int) = (cap : Int) := by simp [effective_size]
    simp only [erase_flash, h1, h2]

/-- Witness for C5: the sentinel clause of the amended claim at the
concrete token `"CHIP"`. -/
theorem parse_size_sentinels_witness :
    FlashErase.parse_size "CHIP" = .ok (-1) :=
  parse_size_sentinels.1 "CHIP" (by decide)

/-- Counterexample for C5 as stated: the read tool's parser fails on the
sentinel tokens instead of returning the whole-chip sentinel, and parses
`-1` as a plain integer. -/
theorem parse_size_sentinels_counterexample :
    FlashRead.parse_size "all" = .error () ∧ FlashRead.parse_size "chip" = .error () ∧
    FlashRead.parse_size "full" = .error () ∧ FlashRead.parse_size "-1" = .ok (-1) := by
  refine ⟨by decide, by decide, by decide, by decide⟩

/-- C9 (corrected).  Both `parse_size` implementations accept negative
decimal numerals (Python `int`/`float` accept a leading sign), returning
negative values other than the sentinel, instead of failing with a parse
error: `"-2"` parses to `-2` and `"-4k"`/`"-4K"` to `-4096`.  Unsigned
decimal numerals do parse to their non-negative value. -/
theorem parse_size_negative_values :
    FlashErase.parse_size "-2" = .ok (-2) ∧
    FlashErase.parse_size "-4k" = .ok (-4096) ∧
    FlashRead.parse_size "-2" = .ok (-2) ∧
    FlashRead.parse_size "-4K" = .ok (-4096) ∧
    (∀ ds : List Char, ds ≠ [] → (∀ c ∈ ds, isDigitChar c = true) →
      FlashErase.parse_size ⟨ds⟩ = .ok (digitsVal ds : Int) ∧
      FlashRead.parse_size ⟨ds⟩ = .ok (digitsVal ds : Int)) := by
  refine ⟨by decide, by decide, by decide, by decide, ?_⟩
  intro ds hne h
  exact ⟨erase_parse_size_digits hne h, read_parse_size_digits hne h⟩

/-- Witness for C9: the amended universal clause at the concrete numeral `7`. -/
theorem parse_size_negative_values_witness :
    FlashErase.parse_size ⟨['7']⟩ = .ok (7 : Int) := by
  have := (parse_size_negative_values.2.2.2.2 ['7'] (by decide) (by decide)).1
  simpa using this

/-- Counterexample for C9 as stated: `"-2"` is accepted with value `-2`
(negative and distinct from the `-1` sentinel) rather than rejected. -/
theorem parse_size_negative_counterexample :
    FlashErase.parse_size "-2" = .ok (-2) ∧ FlashErase.parse_size "-2" ≠ .error () ∧
    FlashErase.parse_size "-4k" = .ok (-4096) := by
  refine ⟨by decide, by decide, by decide⟩

/-! ## Helper lemmas: the chunked loops -/

theorem erase_loop_eq (address block_size size erased : Nat) :
    erase_loop address block_size size erased =
      if erased < size ∧ 0 < block_size then
        (address + erased, min block_size (size - erased)) ::
          erase_loop address block_size size (erased + min block_size (size - erased))
      else [] := by
  rw [erase_loop]
  by_cases hc : erased < size ∧ 0 < block_size
  · rw [dif_pos hc, if_pos hc]
  · rw [dif_neg hc, if_neg hc]

theorem erase_loop_ne_nil_iff {address block_size size erased : Nat} :
    erase_loop address block_size size erased ≠ [] ↔ (erased < size ∧ 0 < block_size) := by
  rw [erase_loop_eq]
  split <;> simp_all

theorem erase_loop_sum (address block_size : Nat) (hbs : 0 < block_size) :
    ∀ n size erased, size - erased ≤ n →
      ((erase_loop address block_size size erased).map Prod.snd).sum = size - erased := by
  intro n
  induction n with
  | zero =>
    intro size erased h
    rw [erase_loop_eq, if_neg (by omega)]
    simp
    omega
  | succ n ih =>
    intro size erased h
    rw [erase_loop_eq]
    by_cases hc : erased < size ∧ 0 < block_size
    · rw [if_pos hc]
      simp only [List.map_cons, List.sum_cons]
      rw [ih size (erased + min block_size (size - erased)) (by omega)]
      omega
    · rw [if_neg hc]
      simp
      omega

theorem erase_loop_shape (address block_size : Nat) :
    ∀ n size erased, size - erased ≤ n →
      ∀ p ∈ erase_loop address block_size size erased,
        ∃ off, erased ≤ off ∧ off < size ∧ p = (address + off, min block_size (size - off)) := by
  intro n
  induction n with
  | zero =>
    intro size erased h p hp
    rw [erase_loop_eq, if_neg (by omega)] at hp
    simp at hp
  | succ n ih =>
    intro size erased h p hp
    rw [erase_loop_eq] at hp
    by_cases hc : erased < size ∧ 0 < block_size
    · rw [if_pos hc] at hp
      rcases List.mem_cons.mp hp with rfl | hp
      · exact ⟨erased, le_refl _, hc.1, rfl⟩
      · obtain ⟨off, h1, h2, h3⟩ := ih size (erased + min block_size (size - erased)) (by omega) p hp
        exact ⟨off, by omega, h2, h3⟩
    · rw [if_neg hc] at hp
      simp at hp

theorem erase_loop_dropLast_full (address block_size : Nat) :
    ∀ n size erased, size - erased ≤ n →
      ∀ p ∈ (erase_loop address block_size size erased).dropLast, p.2 = block_size := by
  intro n
  induction n with
  | zero =>
    intro size erased h p hp
    rw [erase_loop_eq, if_neg (by omega)] at hp
    simp at hp
  | succ n ih =>
    intro size erased h p hp
    rw [erase_loop_eq] at hp
    by_cases hc : erased < size ∧ 0 < block_size
    · rw [if_pos hc] at hp
      by_cases hrest : erase_loop address block_size size (erased + min block_size (size - erased)) = []
      · rw [hrest] at hp
        simp at hp
      · rw [List.dropLast_cons_of_ne_nil hrest] at hp
        rcases List.mem_cons.mp hp with rfl | hp
        · have := erase_loop_ne_nil_iff.mp hrest
          simp only
          omega
        · exact ih size (erased + min block_size (size - erased)) (by omega) p hp
    · rw [if_neg hc] at hp
      simp at hp

theorem erase_loop_head (address block_size size erased : Nat)
    (h : erased < size ∧ 0 < block_size) :
    (erase_loop address block_size size erased).head? =
      some (address + erased, min block_size (size - erased)) := by
  rw [erase_loop_eq, if_pos h]
  rfl

theorem erase_loop_chain (address block_size : Nat) :
    ∀ n size erased, size - erased ≤ n →
      List.Chain' (fun p q : Nat × Nat => q.1 = p.1 + p.2)
        (erase_loop address block_size size erased) := by
  intro n
  induction n with
  | zero =>
    intro size erased h
    rw [erase_loop_eq, if_neg (by omega)]
    exact List.chain'_nil
  | succ n ih =>
    intro size erased h
    rw [erase_loop_eq]
    by_cases hc : erased < size ∧ 0 < block_size
    · rw [if_pos hc]
      rw [List.chain'_cons']
      refine ⟨?_, ih size (erased + min block_size (size - erased)) (by omega)⟩
      intro q hq
      by_cases hrest : erase_loop address block_size size
          (erased + min block_size (size - erased)) = []
      · rw [hrest] at hq
        simp at hq
      · rw [erase_loop_head address block_size size _ (erase_loop_ne_nil_iff.mp hrest)] at hq
        simp only [Option.mem_def, Option.some.injEq] at hq
        subst hq
        simp only
        omega
    · rw [if_neg hc]
      exact List.chain'_nil

theorem erase_loop_coverage (address block_size : Nat) (hbs : 0 < block_size) :
    ∀ n size erased, size - erased ≤ n → ∀ x,
      (∃ p ∈ erase_loop address block_size size erased, p.1 ≤ x ∧ x < p.1 + p.2) ↔
        (address + erased ≤ x ∧ x < address + size) := by
  intro n
  induction n with
  | zero =>
    intro size erased h x
    rw [erase_loop_eq, if_neg (by omega)]
    simp
    omega
  | succ n ih =>
    intro size erased h x
    rw [erase_loop_eq]
    by_cases hc : erased < size ∧ 0 < block_size
    · rw [if_pos hc]
      constructor
      · rintro ⟨p, hp, hx1, hx2⟩
        rcases List.mem_cons.mp hp with rfl | hp
        · simp only at hx1 hx2
          omega
        · have := (ih size (erased + min block_size (size - erased)) (by omega) x).mp
            ⟨p, hp, hx1, hx2⟩
          omega
      · rintro ⟨hx1, hx2⟩
        by_cases hfirst : x < address + erased + min block_size (size - erased)
        · exact ⟨(address + erased, min block_size (size - erased)), List.mem_cons_self _ _,
            by omega, by simpa using hfirst⟩
        · obtain ⟨p, hp, hpx⟩ := (ih size (erased + min block_size (size - erased))
            (by omega) x).mpr ⟨by omega, hx2⟩
          exact ⟨p, List.mem_cons_of_mem _ hp, hpx⟩
    · rw [if_neg hc]
      simp
      omega

theorem write_loop_eq (data : List Nat) (address chunk_size written : Nat) :
    write_loop data address chunk_size written =
      if written < data.length ∧ 0 < chunk_size then
        (address + written, (data.drop written).take (min chunk_size (data.length - written))) ::
          write_loop data address chunk_size (written + min chunk_size (data.length - written))
      else [] := by
  rw [write_loop]
  by_cases hc : written < data.length ∧ 0 < chunk_size
  · rw [dif_pos hc, if_pos hc]
  · rw [dif_neg hc, if_neg hc]

theorem write_loop_proj (data : List Nat) (address chunk_size : Nat) :
    ∀ n written, data.length - written ≤ n →
      (write_loop data address chunk_size written).map (fun p => (p.1, p.2.length)) =
        erase_loop address chunk_size data.length written := by
  intro n
  induction n with
  | zero =>
    intro written h
    rw [write_loop_eq, erase_loop_eq, if_neg (by omega), if_neg (by omega)]
    rfl
  | succ n ih =>
    intro written h
    rw [write_loop_eq, erase_loop_eq]
    by_cases hc : written < data.length ∧ 0 < chunk_size
    · rw [if_pos hc, if_pos hc]
      simp only [List.map_cons]
      rw [ih (written + min chunk_size (data.length - written)) (by omega)]
      congr 1
      simp only [List.length_take, List.length_drop]
      congr 1
      omega
    · rw [if_neg hc, if_neg hc]
      rfl

theorem write_verify_eq (mem : Nat → Nat) (data : List Nat)
    (address chunk_size verified errors : Nat) (first_error_offset : Option Nat) :
    write_verify mem data address chunk_size verified errors first_error_offset =
      if verified < data.length ∧ 0 < chunk_size then
        let current_size := min chunk_size (data.length - verified)
        let s := scan_cmp ((flash_read mem (address + verified) current_size).zip
          ((data.drop verified).take current_size)) verified 0 errors first_error_offset
        let rest := write_verify mem data address chunk_size (verified + current_size) s.1 s.2
        (rest.1, rest.2.1, DevAction.read (address + verified) current_size :: rest.2.2)
      else (errors, first_error_offset, []) := by
  rw [write_verify]
  by_cases hc : verified < data.length ∧ 0 < chunk_size
  · rw [dif_pos hc, if_pos hc]
  · rw [dif_neg hc, if_neg hc]

theorem erase_verify_eq (mem : Nat → Nat)
    (address size chunk_size verified non_erased : Nat) (first_error_offset : Option Nat) :
    erase_verify mem address size chunk_size verified non_erased first_error_offset =
      if verified < size ∧ 0 < chunk_size then
        let current_size := min chunk_size (size - verified)
        let s := scan_ff (flash_read mem (address + verified) current_size)
          verified 0 non_erased first_error_offset
        let rest := erase_verify mem address size chunk_size (verified + current_size) s.1 s.2
        (rest.1, rest.2.1, DevAction.read (address + verified) current_size :: rest.2.2)
      else (non_erased, first_error_offset, []) := by
  rw [erase_verify]
  by_cases hc : verified < size ∧ 0 < chunk_size
  · rw [dif_pos hc, if_pos hc]
  · rw [dif_neg hc, if_neg hc]

theorem write_verify_trace (mem : Nat → Nat) (data : List Nat) (address chunk_size : Nat) :
    ∀ n verified errors first_error_offset, data.length - verified ≤ n →
      (write_verify mem data address chunk_size verified errors first_error_offset).2.2 =
        (erase_loop address chunk_size data.length verified).map
          fun p => DevAction.read p.1 p.2 := by
  intro n
  induction n with
  | zero =>
    intro verified errors f h
    rw [write_verify_eq, erase_loop_eq, if_neg (by omega), if_neg (by omega)]
    rfl
  | succ n ih =>
    intro verified errors f h
    rw [write_verify_eq, erase_loop_eq]
    by_cases hc : verified < data.length ∧ 0 < chunk_size
    · rw [if_pos hc, if_pos hc]
      simp only [List.map_cons]
      congr 1
      exact ih _ _ _ (by omega)
    · rw [if_neg hc, if_neg hc]
      rfl

theorem erase_verify_trace (mem : Nat → Nat) (address size chunk_size : Nat) :
    ∀ n verified non_erased first_error_offset, size - verified ≤ n →
      (erase_verify mem address size chunk_size verified non_erased first_error_offset).2.2 =
        (erase_loop address chunk_size size verified).map
          fun p => DevAction.read p.1 p.2 := by
  intro n
  induction n with
  | zero =>
    intro verified ne f h
    rw [erase_verify_eq, erase_loop_eq, if_neg (by omega), if_neg (by omega)]
    rfl
  | succ n ih =>
    intro verified ne f h
    rw [erase_verify_eq, erase_loop_eq]
    by_cases hc : verified < size ∧ 0 < chunk_size
    · rw [if_pos hc, if_pos hc]
      simp only [List.map_cons]
      congr 1
      exact ih _ _ _ (by omega)
    · rw [if_neg hc, if_neg hc]
      rfl

/-- C1 (confirmed).  For any total and any positive chunk size, the chunk
loop shared by the write, erase and verify phases issues chunks whose
sizes sum to the total; every chunk is `min chunk_size (total - processed)`
at its offset (so the final chunk is clipped to the remaining bytes), and
every chunk except possibly the last is exactly `chunk_size`.  The write
loop and both verify loops walk exactly the same chunk sequence. -/
theorem chunk_loop_spec (chunk_size total : Nat) (hcs : 0 < chunk_size) :
    ((erase_loop 0 chunk_size total 0).map Prod.snd).sum = total ∧
    (∀ p ∈ erase_loop 0 chunk_size total 0,
      ∃ off, off < total ∧ p = (off, min chunk_size (total - off))) ∧
    (∀ p ∈ (erase_loop 0 chunk_size total 0).dropLast, p.2 = chunk_size) ∧
    (∀ (data : List Nat) (address : Nat),
      (write_loop data address chunk_size 0).map (fun p => (p.1, p.2.length)) =
        erase_loop address chunk_size data.length 0) ∧
    (∀ (mem : Nat → Nat) (data : List Nat) (address : Nat),
      (write_verify mem data address chunk_size 0 0 none).2.2 =
        (erase_loop address chunk_size data.length 0).map fun p => DevAction.read p.1 p.2) ∧
    (∀ (mem : Nat → Nat) (address size : Nat),
      (erase_verify mem address size chunk_size 0 0 none).2.2 =
        (erase_loop address chunk_size size 0).map fun p => DevAction.read p.1 p.2) := by
  refine ⟨?_, ?_, ?_, ?_, ?_, ?_⟩
  · simpa using erase_loop_sum 0 chunk_size hcs total total 0 (by omega)
  · intro p hp
    obtain ⟨off, _, h2, h3⟩ := erase_loop_shape 0 chunk_size total total 0 (by omega) p hp
    exact ⟨off, h2, by simpa using h3⟩
  · exact erase_loop_dropLast_full 0 chunk_size total total 0 (by omega)
  · intro data address
    exact write_loop_proj data address chunk_size data.length 0 (by omega)
  · intro mem data address
    exact write_verify_trace mem data address chunk_size data.length 0 0 none (by omega)
  · intro mem address size
    exact erase_verify_trace mem address size chunk_size size 0 0 none (by omega)

/-- Witness for C1: the chunk sizes for a 10-byte range with 4-byte chunks
sum to 10 (chunks 4, 4, 2). -/
theorem chunk_loop_spec_witness :
    ((erase_loop 0 4 10 0).map Prod.snd).sum = 10 :=
  (chunk_loop_spec 4 10 (by decide)).1

/-! ## Helper lemmas: the verification scans -/

theorem flash_read_range' (mem : Nat → Nat) (address v c : Nat) :
    flash_read mem (address + v) c = (List.range' v c).map fun k => mem (address + k) := by
  unfold flash_read
  rw [List.range'_eq_map_range, List.map_map]
  apply List.map_congr_left
  intro i _
  simp only [Function.comp_apply]
  congr 1
  omega

theorem drop_take_eq_map_getD (l : List Nat) :
    ∀ c v, v + c ≤ l.length →
      (l.drop v).take c = (List.range' v c).map fun k => l.getD k 0 := by
  intro c
  induction c with
  | zero => intro v h; simp
  | succ c ih =>
    intro v h
    have hv : v < l.length := by omega
    rw [List.drop_eq_getElem_cons hv, List.range'_succ]
    simp only [List.take_succ_cons, List.map_cons]
    rw [← ih (v + 1) (by omega), List.getD_eq_getElem l 0 hv]

theorem scan_ff_cons (b : Nat) (rest : List Nat) (base i n : Nat) (f : Option Nat) :
    scan_ff (b :: rest) base i n f =
      if b ≠ 255 then
        scan_ff rest base (i + 1) (n + 1) (if f = none then some (base + i) else f)
      else scan_ff rest base (i + 1) n f := rfl

theorem scan_cmp_cons (x : Nat × Nat) (rest : List (Nat × Nat)) (base i e : Nat)
    (f : Option Nat) :
    scan_cmp (x :: rest) base i e f =
      if x.1 ≠ x.2 then
        scan_cmp rest base (i + 1) (e + 1) (if f = none then some (base + i) else f)
      else scan_cmp rest base (i + 1) e f := by
  obtain ⟨a, b⟩ := x
  rfl

theorem scan_ff_count : ∀ (l : List Nat) (base i n : Nat) (f : Option Nat),
    (scan_ff l base i n f).1 = n + l.countP fun b => decide (b ≠ 255) := by
  intro l
  induction l with
  | nil => intro base i n f; simp [scan_ff]
  | cons b rest ih =>
    intro base i n f
    rw [scan_ff_cons]
    by_cases hb : b ≠ 255
    · rw [if_pos hb, ih, List.countP_cons_of_pos _ _ (by simpa using hb)]
      omega
    · rw [if_neg hb, ih, List.countP_cons_of_neg _ _ (by simpa using hb)]

theorem scan_cmp_count : ∀ (l : List (Nat × Nat)) (base i e : Nat) (f : Option Nat),
    (scan_cmp l base i e f).1 = e + l.countP fun p => decide (p.1 ≠ p.2) := by
  intro l
  induction l with
  | nil => intro base i e f; simp [scan_cmp]
  | cons x rest ih =>
    intro base i e f
    rw [scan_cmp_cons]
    by_cases hx : x.1 ≠ x.2
    · rw [if_pos hx, ih, List.countP_cons_of_pos _ _ (by simpa using hx)]
      omega
    · rw [if_neg hx, ih, List.countP_cons_of_neg _ _ (by simpa using hx)]

theorem scan_ff_first (g : Nat → Nat) :
    ∀ (len s base i n : Nat) (f : Option Nat), base + i = s →
      (scan_ff ((List.range' s len).map g) base i n f).2 =
        if f = none then (List.range' s len).find? fun k => decide (g k ≠ 255)
        else f := by
  intro len
  induction len with
  | zero =>
    intro s base i n f h
    cases f <;> simp [scan_ff]
  | succ len ih =>
    intro s base i n f h
    rw [List.range'_succ]
    simp only [List.map_cons]
    rw [scan_ff_cons]
    by_cases hg : g s ≠ 255
    · rw [if_pos hg, ih (s + 1) base (i + 1) (n + 1) _ (by omega),
        List.find?_cons_of_pos _ (by simpa using hg)]
      cases f with
      | none => simp [h]
      | some x => simp
    · rw [if_neg hg, ih (s + 1) base (i + 1) n f (by omega),
        List.find?_cons_of_neg _ (by simpa using hg)]

theorem scan_cmp_first (g : Nat → Nat × Nat) :
    ∀ (len s base i e : Nat) (f : Option Nat), base + i = s →
      (scan_cmp ((List.range' s len).map g) base i e f).2 =
        if f = none then (List.range' s len).find? fun k => decide ((g k).1 ≠ (g k).2)
        else f := by
  intro len
  induction len with
  | zero =>
    intro s base i e f h
    cases f <;> simp [scan_cmp]
  | succ len ih =>
    intro s base i e f h
    rw [List.range'_succ]
    simp only [List.map_cons]
    rw [scan_cmp_cons]
    by_cases hg : (g s).1 ≠ (g s).2
    · rw [if_pos hg, ih (s + 1) base (i + 1) (e + 1) _ (by omega),
        List.find?_cons_of_pos _ (by simpa using hg)]
      cases f with
      | none => simp [h]
      | some x => simp
    · rw [if_neg hg, ih (s + 1) base (i + 1) e f (by omega),
        List.find?_cons_of_neg _ (by simpa using hg)]

theorem find?_range'_eq_some (p : Nat → Bool) :
    ∀ (n s j : Nat), (List.range' s n).find? p = some j ↔
      (s ≤ j ∧ j < s + n ∧ p j = true ∧ ∀ i, s ≤ i → i < j → p i = false) := by
  intro n
  induction n with
  | zero =>
    intro s j
    simp only [List.range'_zero, List.find?_nil]
    constructor
    · intro h; cases h
    · rintro ⟨h1, h2, h3, h4⟩; omega
  | succ n ih =>
    intro s j
    rw [List.range'_succ]
    by_cases hp : p s = true
    · rw [List.find?_cons_of_pos _ hp]
      constructor
      · intro h
        have hj : s = j := by simpa using h
        subst hj
        exact ⟨le_refl _, by omega, hp, fun i h1 h2 => by omega⟩
      · rintro ⟨h1, h2, h3, h4⟩
        by_cases hj : j = s
        · subst hj; rfl
        · have hps := h4 s (le_refl _) (by omega)
          rw [hp] at hps
          cases hps
    · rw [List.find?_cons_of_neg _ hp, ih (s + 1) j]
      have hps : p s = false := by simpa using hp
      constructor
      · rintro ⟨h1, h2, h3, h4⟩
        refine ⟨by omega, by omega, h3, ?_⟩
        intro i hi1 hi2
        by_cases his : i = s
        · subst his; exact hps
        · exact h4 i (by omega) hi2
      · rintro ⟨h1, h2, h3, h4⟩
        have hjs : j ≠ s := by
          intro hj
          subst hj
          rw [h3] at hps
          cases hps
        exact ⟨by omega, by omega, h3, fun i hi1 hi2 => h4 i (by omega) hi2⟩

theorem find?_range'_eq_none (p : Nat → Bool) (n s : Nat) :
    (List.range' s n).find? p = none ↔ ∀ i, s ≤ i → i < s + n → p i = false := by
  rw [List.find?_eq_none]
  constructor
  · intro h i h1 h2
    simpa using h i (List.mem_range'_1.mpr ⟨h1, h2⟩)
  · intro h x hx
    have := List.mem_range'_1.mp hx
    simp [h x this.1 this.2]

theorem erase_verify_fst (mem : Nat → Nat) (address size chunk_size verified non_erased : Nat)
    (f : Option Nat) (h : verified < size ∧ 0 < chunk_size) :
    (erase_verify mem address size chunk_size verified non_erased f).1 =
      (erase_verify mem address size chunk_size
        (verified + min chunk_size (size - verified))
        (scan_ff (flash_read mem (address + verified) (min chunk_size (size - verified)))
          verified 0 non_erased f).1
        (scan_ff (flash_read mem (address + verified) (min chunk_size (size - verified)))
          verified 0 non_erased f).2).1 := by
  rw [erase_verify_eq, if_pos h]

theorem erase_verify_snd (mem : Nat → Nat) (address size chunk_size verified non_erased : Nat)
    (f : Option Nat) (h : verified < size ∧ 0 < chunk_size) :
    (erase_verify mem address size chunk_size verified non_erased f).2.1 =
      (erase_verify mem address size chunk_size
        (verified + min chunk_size (size - verified))
        (scan_ff (flash_read mem (address + verified) (min chunk_size (size - verified)))
          verified 0 non_erased f).1
        (scan_ff (flash_read mem (address + verified) (min chunk_size (size - verified)))
          verified 0 non_erased f).2).2.1 := by
  rw [erase_verify_eq, if_pos h]

theorem erase_verify_count (mem : Nat → Nat) (address size chunk_size : Nat)
    (hcs : 0 < chunk_size) :
    ∀ (n verified non_erased : Nat) (f : Option Nat), size - verified ≤ n →
      (erase_verify mem address size chunk_size verified non_erased f).1 =
        non_erased + (List.range' verified (size - verified)).countP
          (fun k => decide (mem (address + k) ≠ 255)) := by
  intro n
  induction n with
  | zero =>
    intro v ne f h
    rw [erase_verify_eq, if_neg (by omega), show size - v = 0 from by omega]
    simp
  | succ n ih =>
    intro v ne f h
    by_cases hc : v < size ∧ 0 < chunk_size
    · rw [erase_verify_fst mem address size chunk_size v ne f hc]
      rw [ih (v + min chunk_size (size - v)) _ _ (by omega)]
      rw [flash_read_range', scan_ff_count, List.countP_map]
      have hsplit : List.range' v (size - v) =
          List.range' v (min chunk_size (size - v)) ++
            List.range' (v + min chunk_size (size - v))
              (size - v - min chunk_size (size - v)) := by
        rw [List.range'_append_1]
        congr 1
        omega
      rw [hsplit, List.countP_append,
        show size - (v + min chunk_size (size - v)) = size - v - min chunk_size (size - v)
          from by omega]
      have hcomp : ((fun b => decide (b ≠ 255)) ∘ fun k => mem (address + k)) =
          fun k => decide (mem (address + k) ≠ 255) := rfl
      rw [hcomp]
      omega
    · rw [erase_verify_eq, if_neg hc, show size - v = 0 from by omega]
      simp

theorem erase_verify_first (mem : Nat → Nat) (address size chunk_size : Nat)
    (hcs : 0 < chunk_size) :
    ∀ (n verified non_erased : Nat) (f : Option Nat), size - verified ≤ n →
      (erase_verify mem address size chunk_size verified non_erased f).2.1 =
        if f = none then
          (List.range' verified (size - verified)).find?
            (fun k => decide (mem (address + k) ≠ 255))
        else f := by
  intro n
  induction n with
  | zero =>
    intro v ne f h
    rw [erase_verify_eq, if_neg (by omega), show size - v = 0 from by omega]
    cases f <;> simp
  | succ n ih =>
    intro v ne f h
    by_cases hc : v < size ∧ 0 < chunk_size
    · rw [erase_verify_snd mem address size chunk_size v ne f hc]
      rw [ih (v + min chunk_size (size - v)) _ _ (by omega)]
      rw [flash_read_range', scan_ff_first _ _ _ _ _ _ _ (by omega)]
      have hsplit : List.range' v (size - v) =
          List.range' v (min chunk_size (size - v)) ++
            List.range' (v + min chunk_size (size - v))
              (size - v - min chunk_size (size - v)) := by
        rw [List.range'_append_1]
        congr 1
        omega
      rw [show size - (v + min chunk_size (size - v)) = size - v - min chunk_size (size - v)
          from by omega]
      cases f with
      | some x => simp
      | none =>
        rw [hsplit, List.find?_append]
        cases hfc : (List.range' v (min chunk_size (size - v))).find?
            (fun k => decide (mem (address + k) ≠ 255)) with
        | some y => simp [Option.or]
        | none => simp [Option.or]
    · rw [erase_verify_eq, if_neg hc, show size - v = 0 from by omega]
      cases f <;> simp

theorem write_verify_fst (mem : Nat → Nat) (data : List Nat)
    (address chunk_size verified errors : Nat) (f : Option Nat)
    (h : verified < data.length ∧ 0 < chunk_size) :
    (write_verify mem data address chunk_size verified errors f).1 =
      (write_verify mem data address chunk_size
        (verified + min chunk_size (data.length - verified))
        (scan_cmp ((flash_read mem (address + verified)
            (min chunk_size (data.length - verified))).zip
          ((data.drop verified).take (min chunk_size (data.length - verified))))
          verified 0 errors f).1
        (scan_cmp ((flash_read mem (address + verified)
            (min chunk_size (data.length - verified))).zip
          ((data.drop verified).take (min chunk_size (data.length - verified))))
          verified 0 errors f).2).1 := by
  rw [write_verify_eq, if_pos h]

theorem write_verify_snd (mem : Nat → Nat) (data : List Nat)
    (address chunk_size verified errors : Nat) (f : Option Nat)
    (h : verified < data.length ∧ 0 < chunk_size) :
    (write_verify mem data address chunk_size verified errors f).2.1 =
      (write_verify mem data address chunk_size
        (verified + min chunk_size (data.length - verified))
        (scan_cmp ((flash_read mem (address + verified)
            (min chunk_size (data.length - verified))).zip
          ((data.drop verified).take (min chunk_size (data.length - verified))))
          verified 0 errors f).1
        (scan_cmp ((flash_read mem (address + verified)
            (min chunk_size (data.length - verified))).zip
          ((data.drop verified).take (min chunk_size (data.length - verified))))
          verified 0 errors f).2).2.1 := by
  rw [write_verify_eq, if_pos h]

theorem verify_pairs_eq_map (mem : Nat → Nat) (data : List Nat) (address v c : Nat)
    (h : v + c ≤ data.length) :
    (flash_read mem (address + v) c).zip ((data.drop v).take c) =
      (List.range' v c).map fun k => (mem (address + k), data.getD k 0) := by
  rw [flash_read_range', drop_take_eq_map_getD data c v h, List.zip_map']

theorem write_verify_count (mem : Nat → Nat) (data : List Nat) (address chunk_size : Nat)
    (hcs : 0 < chunk_size) :
    ∀ (n verified errors : Nat) (f : Option Nat), data.length - verified ≤ n →
      (write_verify mem data address chunk_size verified errors f).1 =
        errors + (List.range' verified (data.length - verified)).countP
          (fun k => decide (mem (address + k) ≠ data.getD k 0)) := by
  intro n
  induction n with
  | zero =>
    intro v e f h
    rw [write_verify_eq, if_neg (by omega), show data.length - v = 0 from by omega]
    simp
  | succ n ih =>
    intro v e f h
    by_cases hc : v < data.length ∧ 0 < chunk_size
    · rw [write_verify_fst mem data address chunk_size v e f hc]
      rw [ih (v + min chunk_size (data.length - v)) _ _ (by omega)]
      rw [verify_pairs_eq_map mem data address v _ (by omega), scan_cmp_count, List.countP_map]
      have hsplit : List.range' v (data.length - v) =
          List.range' v (min chunk_size (data.length - v)) ++
            List.range' (v + min chunk_size (data.length - v))
              (data.length - v - min chunk_size (data.length - v)) := by
        rw [List.range'_append_1]
        congr 1
        omega
      rw [hsplit, List.countP_append,
        show data.length - (v + min chunk_size (data.length - v)) =
          data.length - v - min chunk_size (data.length - v) from by omega]
      have hcomp : ((fun p : Nat × Nat => decide (p.1 ≠ p.2)) ∘
          fun k => (mem (address + k), data.getD k 0)) =
          fun k => decide (mem (address + k) ≠ data.getD k 0) := rfl
      rw [hcomp]
      omega
    · rw [write_verify_eq, if_neg hc, show data.length - v = 0 from by omega]
      simp

theorem write_verify_first (mem : Nat → Nat) (data : List Nat) (address chunk_size : Nat)
    (hcs : 0 < chunk_size) :
    ∀ (n verified errors : Nat) (f : Option Nat), data.length - verified ≤ n →
      (write_verify mem data address chunk_size verified errors f).2.1 =
        if f = none then
          (List.range' verified (data.length - verified)).find?
            (fun k => decide (mem (address + k) ≠ data.getD k 0))
        else f := by
  intro n
  induction n with
  | zero =>
    intro v e f h
    rw [write_verify_eq, if_neg (by omega), show data.length - v = 0 from by omega]
    cases f <;> simp
  | succ n ih =>
    intro v e f h
    by_cases hc : v < data.length ∧ 0 < chunk_size
    · rw [write_verify_snd mem data address chunk_size v e f hc]
      rw [ih (v + min chunk_size (data.length - v)) _ _ (by omega)]
      rw [verify_pairs_eq_map mem data address v _ (by omega)]
      rw [scan_cmp_first _ _ _ _ _ _ _ (by omega)]
      have hcomp : (fun k => decide ((mem (address + k), data.getD k 0).1 ≠
          (mem (address + k), data.getD k 0).2)) =
          fun k => decide (mem (address + k) ≠ data.getD k 0) := rfl
      rw [hcomp]
      have hsplit : List.range' v (data.length - v) =
          List.range' v (min chunk_size (data.length - v)) ++
            List.range' (v + min chunk_size (data.length - v))
              (data.length - v - min chunk_size (data.length - v)) := by
        rw [List.range'_append_1]
        congr 1
        omega
      rw [show data.length - (v + min chunk_size (data.length - v)) =
        data.length - v - min chunk_size (data.length - v) from by omega]
      cases f with
      | some x => simp
      | none =>
        rw [hsplit, List.find?_append]
        cases hfc : (List.range' v (min chunk_size (data.length - v))).find?
            (fun k => decide (mem (address + k) ≠ data.getD k 0)) with
        | some y => simp [Option.or]
        | none => simp [Option.or]
    · rw [write_verify_eq, if_neg hc, show data.length - v = 0 from by omega]
      cases f <;> simp

/-! ## Flow-level lemmas -/

theorem erase_flash_verify_eq (cap block_size : Nat) (mem : Nat → Nat) (address size : Nat)
    (unlock_ok : Bool) (hrange : address + size ≤ cap) :
    erase_flash cap block_size mem address (size : Int) true unlock_ok true =
      ⟨[DevAction.unlock unlock_ok] ++
        (if (size : Int) = (cap : Int) then [DevAction.chipErase]
          else (erase_loop address block_size size 0).map fun p => DevAction.erase p.1 p.2) ++
        (erase_verify mem address size 4096 0 0 none).2.2,
       decide ((size : Int) ≥ 1024 * 1024),
       (erase_verify mem address size 4096 0 0 none).1,
       (erase_verify mem address size 4096 0 0 none).2.1,
       if (erase_verify mem address size 4096 0 0 none).1 = 0 then .ok true
       else .error .verifyFailed⟩ := by
  have heff : effective_size cap ((size : Nat) : Int) = (size : Int) := by
    rw [effective_size, if_neg (by omega)]
  simp only [erase_flash, heff]
  rw [if_neg (by omega), if_neg (by simp)]
  simp [Int.toNat_natCast]

/-- C6 (confirmed).  With verification enabled and the range in capacity,
`erase_flash`'s verify phase passes (returns `True`) exactly when every
byte read back from the erased range equals 0xFF; `non_erased` counts the
bytes differing from 0xFF, `first_error_offset` is the least such offset,
and a failed verification raises (`ValueError`), which `main` turns into
exit code 1, with no retry path. -/
theorem erase_flash_verify_spec (cap block_size : Nat) (mem : Nat → Nat) (address size : Nat)
    (unlock_ok : Bool) (hrange : address + size ≤ cap) :
    ((erase_flash cap block_size mem address (size : Int) true unlock_ok true).result =
        .ok true ↔ ∀ k < size, mem (address + k) = 255) ∧
    (erase_flash cap block_size mem address (size : Int) true unlock_ok true).non_erased =
      (List.range size).countP (fun k => decide (mem (address + k) ≠ 255)) ∧
    (∀ j, (erase_flash cap block_size mem address (size : Int) true
        unlock_ok true).first_error_offset = some j ↔
      (j < size ∧ mem (address + j) ≠ 255 ∧ ∀ i < j, mem (address + i) = 255)) ∧
    ((erase_flash cap block_size mem address (size : Int) true unlock_ok true).non_erased ≠ 0 →
      (erase_flash cap block_size mem address (size : Int) true unlock_ok true).result =
        .error .verifyFailed ∧
      run_exit (erase_flash cap block_size mem address (size : Int) true
        unlock_ok true).result = 1) := by
  have hcount : (erase_verify mem address size 4096 0 0 none).1 =
      (List.range size).countP fun k => decide (mem (address + k) ≠ 255) := by
    have := erase_verify_count mem address size 4096 (by norm_num) size 0 0 none (by omega)
    simpa [List.range_eq_range'] using this
  have hfirst : (erase_verify mem address size 4096 0 0 none).2.1 =
      (List.range size).find? fun k => decide (mem (address + k) ≠ 255) := by
    have := erase_verify_first mem address size 4096 (by norm_num) size 0 0 none (by omega)
    simpa [List.range_eq_range'] using this
  rw [erase_flash_verify_eq cap block_size mem address size unlock_ok hrange]
  refine ⟨?_, by simpa using hcount, ?_, ?_⟩
  · simp only [hcount]
    by_cases hz : (List.range size).countP (fun k => decide (mem (address + k) ≠ 255)) = 0
    · rw [if_pos hz]
      rw [List.countP_eq_zero] at hz
      constructor
      · intro _ k hk
        have := hz k (List.mem_range.mpr hk)
        simpa using this
      · intro _
        rfl
    · rw [if_neg hz]
      constructor
      · intro hcontra
        cases hcontra
      · intro hall
        exfalso
        apply hz
        rw [List.countP_eq_zero]
        intro k hk
        simp [hall k (List.mem_range.mp hk)]
  · intro j
    simp only [hfirst, List.range_eq_range', find?_range'_eq_some]
    simp only [decide_eq_true_eq, decide_eq_false_iff_not, not_not, zero_add]
    constructor
    · rintro ⟨h1, h2, h3, h4⟩
      exact ⟨h2, h3, fun i hi => h4 i (by omega) hi⟩
    · rintro ⟨h2, h3, h4⟩
      exact ⟨by omega, h2, h3, fun i h1 hi => h4 i hi⟩
  · intro hnz
    simp only [hcount] at hnz
    simp only [hcount, if_neg hnz]
    constructor <;> trivial

/-- Witness for C6: erasing 8 bytes on a 16-byte device whose byte at
address 2 reads back 0 reports the first non-erased offset 2. -/
theorem erase_flash_verify_spec_witness :
    (erase_flash 16 4 (fun a => if a = 2 then 0 else 255) 0 ((8 : Nat) : Int)
      true true true).first_error_offset = some 2 := by
  have h := (erase_flash_verify_spec 16 4 (fun a => if a = 2 then 0 else 255) 0 8 true
    (by omega)).2.2.1 2
  exact h.mpr ⟨by omega, by decide, by decide⟩

theorem write_file_verify_eq (cap block_size : Nat) (mem : Nat → Nat) (data : List Nat)
    (address : Nat) (erase : Bool) (chunk_size : Nat) (unlock_ok : Bool)
    (hrange : address + data.length ≤ cap) :
    write_file_to_flash cap block_size mem data address true erase chunk_size unlock_ok =
      ⟨[DevAction.unlock unlock_ok] ++
        (if erase then
          (erase_loop address block_size (calculate_erase_size data.length block_size) 0).map
            fun p => DevAction.erase p.1 p.2
        else []) ++
        ((write_loop data address chunk_size 0).map fun p => DevAction.write p.1 p.2) ++
        (write_verify mem data address chunk_size 0 0 none).2.2,
       (write_verify mem data address chunk_size 0 0 none).1,
       (write_verify mem data address chunk_size 0 0 none).2.1,
       if (write_verify mem data address chunk_size 0 0 none).1 = 0 then .ok ()
       else .error .verifyFailed⟩ := by
  simp only [write_file_to_flash]
  rw [if_neg (by omega)]
  simp only [if_true]

/-- C2 (confirmed).  With verification enabled, in-range data and a
positive chunk size, the write verifier of `write_file_to_flash` succeeds
exactly when every read-back byte equals the corresponding source byte;
`errors` counts the differing byte positions, `first_error_offset` is the
least differing offset (chunks scanned in increasing address order), and
any mismatch raises (`ValueError`), which `main` turns into exit code 1. -/
theorem write_file_verify_spec (cap block_size : Nat) (mem : Nat → Nat) (data : List Nat)
    (address : Nat) (erase unlock_ok : Bool) (chunk_size : Nat) (hcs : 0 < chunk_size)
    (hrange : address + data.length ≤ cap) :
    ((write_file_to_flash cap block_size mem data address true erase chunk_size
        unlock_ok).result = .ok () ↔
      ∀ k < data.length, mem (address + k) = data.getD k 0) ∧
    (write_file_to_flash cap block_size mem data address true erase chunk_size
        unlock_ok).errors =
      (List.range data.length).countP
        (fun k => decide (mem (address + k) ≠ data.getD k 0)) ∧
    (∀ j, (write_file_to_flash cap block_size mem data address true erase chunk_size
        unlock_ok).first_error_offset = some j ↔
      (j < data.length ∧ mem (address + j) ≠ data.getD j 0 ∧
        ∀ i < j, mem (address + i) = data.getD i 0)) ∧
    ((write_file_to_flash cap block_size mem data address true erase chunk_size
        unlock_ok).errors ≠ 0 →
      (write_file_to_flash cap block_size mem data address true erase chunk_size
        unlock_ok).result = .error .verifyFailed ∧
      run_exit (write_file_to_flash cap block_size mem data address true erase chunk_size
        unlock_ok).result = 1) := by
  have hcount : (write_verify mem data address chunk_size 0 0 none).1 =
      (List.range data.length).countP
        fun k => decide (mem (address + k) ≠ data.getD k 0) := by
    have := write_verify_count mem data address chunk_size hcs data.length 0 0 none (by omega)
    simpa [List.range_eq_range'] using this
  have hfirst : (write_verify mem data address chunk_size 0 0 none).2.1 =
      (List.range data.length).find?
        fun k => decide (mem (address + k) ≠ data.getD k 0) := by
    have := write_verify_first mem data address chunk_size hcs data.length 0 0 none (by omega)
    simpa [List.range_eq_range'] using this
  rw [write_file_verify_eq cap block_size mem data address erase chunk_size unlock_ok hrange]
  refine ⟨?_, by simpa using hcount, ?_, ?_⟩
  · simp only [hcount]
    by_cases hz : (List.range data.length).countP
        (fun k => decide (mem (address + k) ≠ data.getD k 0)) = 0
    · rw [if_pos hz]
      rw [List.countP_eq_zero] at hz
      constructor
      · intro _ k hk
        have := hz k (List.mem_range.mpr hk)
        simpa using this
      · intro _
        rfl
    · rw [if_neg hz]
      constructor
      · intro hcontra
        cases hcontra
      · intro hall
        exfalso
        apply hz
        rw [List.countP_eq_zero]
        intro k hk
        simp [hall k (List.mem_range.mp hk)]
  · intro j
    simp only [hfirst, List.range_eq_range', find?_range'_eq_some]
    simp only [decide_eq_true_eq, decide_eq_false_iff_not, not_not, zero_add]
    constructor
    · rintro ⟨h1, h2, h3, h4⟩
      exact ⟨h2, h3, fun i hi => h4 i (by omega) hi⟩
    · rintro ⟨h2, h3, h4⟩
      exact ⟨by omega, h2, h3, fun i h1 hi => h4 i hi⟩
  · intro hnz
    simp only [hcount] at hnz
    simp only [hcount, if_neg hnz]
    constructor <;> trivial

/-- Witness for C2: writing `[10, 20, 30]` to a device that faithfully
returns those bytes verifies successfully. -/
theorem write_file_verify_spec_witness :
    (write_file_to_flash 16 4 (fun a => [10, 20, 30].getD a 0) [10, 20, 30] 0 true true 4096
      true).result = .ok () := by
  have h := (write_file_verify_spec 16 4 (fun a => [10, 20, 30].getD a 0) [10, 20, 30] 0
    true true 4096 (by norm_num) (by simp)).1
  exact h.mpr (by decide)

/-- C3 (confirmed).  When the requested range exceeds the device capacity,
each of the erase, write and read-to-file flows raises `ValueError` with
an empty device-call trace: no unlock, read, write or erase is issued, so
the device is untouched.  For erase the bound is checked against the
effective size (after whole-chip substitution), for write against the
loaded file length. -/
theorem range_check_rejects_before_io :
    (∀ (cap block_size : Nat) (mem : Nat → Nat) (address : Nat) (size0 : Int)
        (verify_after unlock_ok confirm_big : Bool),
      (address : Int) + effective_size cap size0 > (cap : Int) →
      erase_flash cap block_size mem address size0 verify_after unlock_ok confirm_big =
        ⟨[], false, 0, none, .error .range⟩) ∧
    (∀ (cap block_size : Nat) (mem : Nat → Nat) (data : List Nat) (address : Nat)
        (verify erase : Bool) (chunk_size : Nat) (unlock_ok : Bool),
      address + data.length > cap →
      write_file_to_flash cap block_size mem data address verify erase chunk_size unlock_ok =
        ⟨[], 0, none, .error .range⟩) ∧
    (∀ (cap : Nat) (mem : Nat → Nat) (output_exists : Bool) (size : Int)
        (address chunk_size : Nat) (confirm_overwrite : Bool),
      (address : Int) + size > (cap : Int) →
      read_flash_to_file cap mem output_exists size address chunk_size confirm_overwrite =
        ⟨[], [], false, false, .error .range⟩) := by
  refine ⟨?_, ?_, ?_⟩
  · intro cap block_size mem address size0 verify_after unlock_ok confirm_big h
    simp only [erase_flash]
    rw [if_pos h]
  · intro cap block_size mem data address verify erase chunk_size unlock_ok h
    simp only [write_file_to_flash]
    rw [if_pos h]
  · intro cap mem output_exists size address chunk_size confirm_overwrite h
    simp only [read_flash_to_file]
    rw [if_pos h]

/-- Witness for C3: erasing 8 bytes at address 4 of an 8-byte device is a
range error with no device calls. -/
theorem range_check_rejects_before_io_witness :
    erase_flash 8 4 (fun _ => 0) 4 (8 : Int) true true true =
      ⟨[], false, 0, none, .error .range⟩ :=
  range_check_rejects_before_io.1 8 4 (fun _ => 0) 4 8 true true true (by decide)

/-- Counterexample for C7 as stated: a whole-chip erase of a 4 KiB device
runs with no confirmation prompt at all (the prompt triggers on
`size >= 1 MiB`, not on chip-wide erases), even though the user input
would have declined. -/
theorem erase_confirmation_counterexample :
    (erase_flash 4096 4096 (fun _ => 255) 0 (-1) false true false).asked = false ∧
    DevAction.chipErase ∈ (erase_flash 4096 4096 (fun _ => 255) 0 (-1) false true false).trace ∧
    (erase_flash 4096 4096 (fun _ => 255) 0 (-1) false true false).result = .ok true := by
  refine ⟨by decide, by decide, by decide⟩

/-- C7 (corrected).  The erase tool asks for confirmation before any erase
of at least 1 MiB (which covers chip-wide erases only on devices of at
least 1 MiB) and has no force bypass; declining cancels the operation with
only the unlock attempt issued and a normal return.  The read tool asks
before overwriting an existing output file and before starting, both
bypassed by `--force`; declining the overwrite prompt cancels with exit
code 0 and no device reads. -/
theorem confirmation_prompts_spec :
    (∀ (cap block_size : Nat) (mem : Nat → Nat) (address : Nat) (size0 : Int)
        (verify_after unlock_ok : Bool),
      (address : Int) + effective_size cap size0 ≤ (cap : Int) →
      effective_size cap size0 ≥ 1024 * 1024 →
      erase_flash cap block_size mem address size0 verify_after unlock_ok false =
        ⟨[DevAction.unlock unlock_ok], true, 0, none, .ok false⟩) ∧
    (∀ (cap : Nat) (mem : Nat → Nat)
        (output_exists confirm_overwrite confirm_start : Bool)
        (address : Nat) (size : Int) (chunk_size : Nat) (ci : Bool),
      (read_main cap mem output_exists true confirm_overwrite confirm_start address size
        chunk_size ci).asked_overwrite = false ∧
      (read_main cap mem output_exists true confirm_overwrite confirm_start address size
        chunk_size ci).ran = true) ∧
    (∀ (cap : Nat) (mem : Nat → Nat) (confirm_start : Bool)
        (address : Nat) (size : Int) (chunk_size : Nat) (ci : Bool),
      read_main cap mem true false false confirm_start address size chunk_size ci =
        ⟨[], true, 0, false⟩) := by
  refine ⟨?_, ?_, ?_⟩
  · intro cap block_size mem address size0 verify_after unlock_ok hle hbig
    have hask : decide (effective_size cap size0 ≥ 1024 * 1024) = true := by
      simpa using hbig
    simp only [erase_flash]
    rw [if_neg (by omega), hask, if_pos ⟨rfl, by simp⟩]
  · intro cap mem output_exists confirm_overwrite confirm_start address size chunk_size ci
    constructor <;> simp [read_main]
  · intro cap mem confirm_start address size chunk_size ci
    simp [read_main]

/-- Witness for C7: a declined 1 MiB erase on a 4 MiB device is cancelled
with only the unlock call issued. -/
theorem confirmation_prompts_spec_witness :
    erase_flash 4194304 4096 (fun _ => 255) 0 (1048576 : Int) true true false =
      ⟨[DevAction.unlock true], true, 0, none, .ok false⟩ :=
  confirmation_prompts_spec.1 4194304 4096 (fun _ => 255) 0 1048576 true true
    (by decide) (by decide)

/-- C8 (confirmed).  Whether `flash.unlock()` raises has no effect on
either flow: the confirmation prompt, the erase/write/verify work, the
counters, the result and the exit code are identical; only the recorded
unlock attempt itself differs. -/
theorem unlock_failure_ignored :
    (∀ (cap block_size : Nat) (mem : Nat → Nat) (address : Nat) (size0 : Int)
        (verify_after confirm_big : Bool),
      (erase_flash cap block_size mem address size0 verify_after true confirm_big).trace.map
          scrub_unlock =
        (erase_flash cap block_size mem address size0 verify_after false confirm_big).trace.map
          scrub_unlock ∧
      (erase_flash cap block_size mem address size0 verify_after true confirm_big).asked =
        (erase_flash cap block_size mem address size0 verify_after false confirm_big).asked ∧
      (erase_flash cap block_size mem address size0 verify_after true confirm_big).non_erased =
        (erase_flash cap block_size mem address size0 verify_after false
          confirm_big).non_erased ∧
      (erase_flash cap block_size mem address size0 verify_after true
          confirm_big).first_error_offset =
        (erase_flash cap block_size mem address size0 verify_after false
          confirm_big).first_error_offset ∧
      (erase_flash cap block_size mem address size0 verify_after true confirm_big).result =
        (erase_flash cap block_size mem address size0 verify_after false confirm_big).result ∧
      run_exit (erase_flash cap block_size mem address size0 verify_after true
          confirm_big).result =
        run_exit (erase_flash cap block_size mem address size0 verify_after false
          confirm_big).result) ∧
    (∀ (cap block_size : Nat) (mem : Nat → Nat) (data : List Nat) (address : Nat)
        (verify erase : Bool) (chunk_size : Nat),
      (write_file_to_flash cap block_size mem data address verify erase chunk_size
          true).trace.map scrub_unlock =
        (write_file_to_flash cap block_size mem data address verify erase chunk_size
          false).trace.map scrub_unlock ∧
      (write_file_to_flash cap block_size mem data address verify erase chunk_size
          true).errors =
        (write_file_to_flash cap block_size mem data address verify erase chunk_size
          false).errors ∧
      (write_file_to_flash cap block_size mem data address verify erase chunk_size
          true).first_error_offset =
        (write_file_to_flash cap block_size mem data address verify erase chunk_size
          false).first_error_offset ∧
      (write_file_to_flash cap block_size mem data address verify erase chunk_size
          true).result =
        (write_file_to_flash cap block_size mem data address verify erase chunk_size
          false).result ∧
      run_exit (write_file_to_flash cap block_size mem data address verify erase chunk_size
          true).result =
        run_exit (write_file_to_flash cap block_size mem data address verify erase chunk_size
          false).result) := by
  constructor
  · intro cap block_size mem address size0 verify_after confirm_big
    simp only [erase_flash]
    split_ifs <;> simp [scrub_unlock, run_exit]
  · intro cap block_size mem data address verify erase chunk_size
    simp only [write_file_to_flash]
    split_ifs <;> simp [scrub_unlock, run_exit]

theorem le_calculate_erase_size (ds bs : Nat) (hbs : 0 < bs) :
    ds ≤ calculate_erase_size ds bs := by
  unfold calculate_erase_size
  have h1 := Nat.div_add_mod (ds + bs - 1) bs
  have h2 : (ds + bs - 1) % bs < bs := Nat.mod_lt _ hbs
  rw [Nat.mul_comm] at h1
  omega

theorem calculate_erase_size_min (ds bs m : Nat) (hbs : 0 < bs) (hdvd : bs ∣ m)
    (hle : ds ≤ m) : calculate_erase_size ds bs ≤ m := by
  obtain ⟨t, rfl⟩ := hdvd
  unfold calculate_erase_size
  have hq : (ds + bs - 1) / bs ≤ t := by
    rw [Nat.div_le_iff_le_mul_add_pred hbs]
    omega
  calc (ds + bs - 1) / bs * bs ≤ t * bs := Nat.mul_le_mul_right bs hq
    _ = bs * t := Nat.mul_comm t bs

theorem write_file_trace_erase_calls (cap block_size : Nat) (mem : Nat → Nat)
    (data : List Nat) (address : Nat) (verify : Bool) (chunk_size : Nat) (unlock_ok : Bool)
    (hrange : address + data.length ≤ cap) :
    (write_file_to_flash cap block_size mem data address verify true chunk_size
        unlock_ok).trace.filter isEraseCall =
      (erase_loop address block_size (calculate_erase_size data.length block_size) 0).map
        fun p => DevAction.erase p.1 p.2 := by
  have he : (isEraseCall ∘ fun p : Nat × Nat => DevAction.erase p.1 p.2) = fun _ => true := rfl
  have hw : (isEraseCall ∘ fun p : Nat × List Nat => DevAction.write p.1 p.2) =
    fun _ => false := rfl
  have hr : (isEraseCall ∘ fun p : Nat × Nat => DevAction.read p.1 p.2) = fun _ => false := rfl
  cases verify with
  | false =>
    simp only [write_file_to_flash]
    rw [if_neg (by omega)]
    simp [List.filter_append, List.filter_map, isEraseCall, he, hw]
  | true =>
    simp only [write_file_to_flash]
    rw [if_neg (by omega)]
    simp only [if_true]
    rw [write_verify_trace mem data address chunk_size data.length 0 0 none (by omega)]
    simp [List.filter_append, List.filter_map, isEraseCall, he, hw, hr]

/-- C10 (confirmed).  With erasing enabled, the erase calls issued by the
write flow are exactly the chunked tiling of `[address, address + E)` in
increasing adjacent order, where `E = calculate_erase_size(len, bs)` is
the least multiple of the erase block size at least the file length;
no erased byte lies at or beyond `address + E`, the written bytes cover
exactly `[address, address + len)`, and the slack `[address + len,
address + E)` is erased but never written. -/
theorem write_erase_tiling_spec (cap block_size : Nat) (mem : Nat → Nat) (data : List Nat)
    (address : Nat) (verify : Bool) (chunk_size : Nat) (unlock_ok : Bool)
    (hbs : 0 < block_size) (hcs : 0 < chunk_size)
    (hrange : address + data.length ≤ cap) :
    (block_size ∣ calculate_erase_size data.length block_size ∧
      data.length ≤ calculate_erase_size data.length block_size ∧
      ∀ m, block_size ∣ m → data.length ≤ m →
        calculate_erase_size data.length block_size ≤ m) ∧
    (write_file_to_flash cap block_size mem data address verify true chunk_size
        unlock_ok).trace.filter isEraseCall =
      (erase_loop address block_size (calculate_erase_size data.length block_size) 0).map
        (fun p => DevAction.erase p.1 p.2) ∧
    List.Chain' (fun p q : Nat × Nat => q.1 = p.1 + p.2)
      (erase_loop address block_size (calculate_erase_size data.length block_size) 0) ∧
    (∀ x, (∃ p ∈ erase_loop address block_size
          (calculate_erase_size data.length block_size) 0,
        p.1 ≤ x ∧ x < p.1 + p.2) ↔
      (address ≤ x ∧ x < address + calculate_erase_size data.length block_size)) ∧
    (∀ x, (∃ p ∈ write_loop data address chunk_size 0,
        p.1 ≤ x ∧ x < p.1 + p.2.length) ↔
      (address ≤ x ∧ x < address + data.length)) ∧
    (∀ x, address + data.length ≤ x →
      x < address + calculate_erase_size data.length block_size →
      (∃ p ∈ erase_loop address block_size
          (calculate_erase_size data.length block_size) 0,
        p.1 ≤ x ∧ x < p.1 + p.2) ∧
      ¬(∃ p ∈ write_loop data address chunk_size 0,
        p.1 ≤ x ∧ x < p.1 + p.2.length)) := by
  have hecov : ∀ x, (∃ p ∈ erase_loop address block_size
        (calculate_erase_size data.length block_size) 0,
      p.1 ≤ x ∧ x < p.1 + p.2) ↔
      (address ≤ x ∧ x < address + calculate_erase_size data.length block_size) := by
    intro x
    have := erase_loop_coverage address block_size hbs
      (calculate_erase_size data.length block_size)
      (calculate_erase_size data.length block_size) 0 (by omega) x
    simpa only [Nat.add_zero] using this
  have hwcov : ∀ x, (∃ p ∈ write_loop data address chunk_size 0,
      p.1 ≤ x ∧ x < p.1 + p.2.length) ↔
      (address ≤ x ∧ x < address + data.length) := by
    intro x
    have hcov := erase_loop_coverage address chunk_size hcs data.length data.length 0
      (by omega) x
    rw [← write_loop_proj data address chunk_size data.length 0 (by omega)] at hcov
    simp only [List.mem_map] at hcov
    simp only [Nat.add_zero] at hcov
    constructor
    · rintro ⟨p, hp, h1, h2⟩
      exact hcov.mp ⟨(p.1, p.2.length), ⟨p, hp, rfl⟩, h1, h2⟩
    · intro hx
      obtain ⟨q, ⟨p, hp, rfl⟩, h1, h2⟩ := hcov.mpr hx
      exact ⟨p, hp, h1, h2⟩
  refine ⟨⟨dvd_mul_left _ _, le_calculate_erase_size data.length block_size hbs,
      fun m hdvd hle => calculate_erase_size_min data.length block_size m hbs hdvd hle⟩,
    write_file_trace_erase_calls cap block_size mem data address verify chunk_size
      unlock_ok hrange,
    erase_loop_chain address block_size (calculate_erase_size data.length block_size)
      (calculate_erase_size data.length block_size) 0 (by omega),
    hecov, hwcov, ?_⟩
  intro x h1 h2
  refine ⟨(hecov x).mpr ⟨by omega, h2⟩, ?_⟩
  intro hw
  have := (hwcov x).mp hw
  omega

/-- Witness for C10: a 5-byte file with a 4-byte erase block erases two
blocks (8 bytes), the least block multiple covering the file. -/
theorem write_erase_tiling_spec_witness :
    4 ∣ calculate_erase_size 5 4 ∧ 5 ≤ calculate_erase_size 5 4 := by
  have h := write_erase_tiling_spec 16 4 (fun _ => 255) [1, 2, 3, 4, 5] 0 true 4096 true
    (by decide) (by decide) (by decide)
  exact ⟨by simpa using h.1.1, by simpa using h.1.2.1⟩

example : FlashErase.parse_size "4k" = .ok 4096 := by decide
example : FlashErase.parse_size "1m" = .ok 1048576 := by decide
example : FlashErase.parse_size "-1" = .ok (-1) := by decide
example : FlashErase.parse_size "ALL" = .ok (-1) := by decide
example : FlashErase.parse_size "0x10k" = .ok 16384 := by decide
example : FlashErase.parse_size "1G" = .error () := by decide
example : FlashErase.parse_size "-2" = .ok (-2) := by decide
example : FlashErase.parse_size "-4k" = .ok (-4096) := by decide
example : FlashRead.parse_size "4k" = .ok 4096 := by decide
example : FlashRead.parse_size "1m" = .ok 1048576 := by decide
example : FlashRead.parse_size "1G" = .ok 1073741824 := by decide
example : FlashRead.parse_size "all" = .error () := by decide
example : FlashRead.parse_size "-1" = .ok (-1) := by decide
example : FlashRead.parse_size "0x1000" = .ok 4096 := by decide
example : FlashRead.parse_size "-4K" = .ok (-4096) := by decide
